import Mathlib

/-!
Verification of the `trxstore` idempotency cache
(`src/idempotent-operations/trxstore/trxstore.go`).

The Go component is a transaction-keyed in-memory cache: two maps
(`cache : map[uuid.UUID][]byte` and `cacheExpire : map[uuid.UUID]time.Time`)
guarded by one RWMutex, a TTL, and a background sweeper goroutine that
periodically deletes expired entries.

Shallow embedding choices:
* `uuid.UUID` is modelled abstractly as `Nat` (an opaque identifier space);
* a Go byte slice is `Option (List Nat)`: `none` is the nil slice (the zero
  value a Go map lookup yields for a missing key), `some l` a non-nil slice
  with contents `l`;
* `time.Time` / `time.Duration` are `Int` nanoseconds; `time.Since createdAt`
  at instant `now` is `now - createdAt`;
* Go maps are association lists (first binding wins); reachable states have
  duplicate-free key lists, captured by the `WF` predicate;
* the RWMutex serialises all writers, so each operation is a pure state
  transformer and concurrent histories are arbitrary interleavings
  (sequences) of those transformers;
* the sweeper goroutine `watchExpire` is modelled as a step function on a
  sweeper state (running flag, ticker) reacting to ticker/cancellation
  events.
-/

namespace TrxStore

/-- Operation identifier (`uuid.UUID`), modelled as an abstract `Nat`. -/
abbrev UUID := Nat

/-- A Go byte slice: `none` is the nil slice, `some l` a non-nil slice. -/
abbrev GoBytes := Option (List Nat)

/-- Instants and durations in nanoseconds (Go `time` is int64-based). -/
abbrev Time := Int

/-- `const sleepBetweenExpireCheck = 100 * time.Millisecond` in nanoseconds. -/
def sleepBetweenExpireCheck : Time := 100000000

/-- Lookup in an association-list model of a Go map: first binding wins. -/
def mapLookup {α : Type} : List (UUID × α) → UUID → Option α
  | [], _ => none
  | (k, v) :: rest, id => if k = id then some v else mapLookup rest id

/-- `m[k] = v` for a Go map: bind `k` to `v`, dropping any older binding. -/
def mapInsert {α : Type} (k : UUID) (v : α) (m : List (UUID × α)) : List (UUID × α) :=
  (k, v) :: m.filter (fun p => p.1 ≠ k)

/-- The state of a `BytesTrxStore`: the two maps and the TTL (the RWMutex
needs no model: it only serialises the operations). -/
structure BytesTrxStore where
  cache : List (UUID × GoBytes)
  cacheExpire : List (UUID × Time)
  ttl : Time

/-- `NewBytesTRXStoreWithContext`: fresh store with empty maps and the given
TTL (the spawned sweeper goroutine is modelled separately, by
`watchExpireStep`). -/
def NewBytesTRXStoreWithContext (ttl : Time) : BytesTrxStore :=
  { cache := [], cacheExpire := [], ttl := ttl }

/-- `NewBytesTRXStore`: same store, constructed with a nil context. -/
def NewBytesTRXStore (ttl : Time) : BytesTrxStore :=
  NewBytesTRXStoreWithContext ttl

/-- `Check`: read `p.cache[trx]` under the read lock; a missing key yields
the zero value, the nil slice. -/
def Check (p : BytesTrxStore) (trx : UUID) : GoBytes :=
  (mapLookup p.cache trx).getD none

/-- `Check` with the receiver state threaded through explicitly, to state
frame conditions: the Go method reads but never writes `p`. -/
def CheckSt (p : BytesTrxStore) (trx : UUID) : GoBytes × BytesTrxStore :=
  ((mapLookup p.cache trx).getD none, p)

/-- `Store`: under the write lock, `p.cache[trx] = result` and
`p.cacheExpire[trx] = time.Now()` (the caller-visible instant `now`). -/
def Store (p : BytesTrxStore) (trx : UUID) (result : GoBytes) (now : Time) : BytesTrxStore :=
  { p with
      cache := mapInsert trx result p.cache
      cacheExpire := mapInsert trx now p.cacheExpire }

/-- `time.Since(createdAt) > p.ttl` at instant `now`. -/
def expired (ttl now createdAt : Time) : Bool :=
  decide (now - createdAt > ttl)

/-- The identifiers `cleanupExpired` collects in its read-locked pass
(`entriesForRemove`). -/
def entriesForRemove (p : BytesTrxStore) (now : Time) : List UUID :=
  (p.cacheExpire.filter (fun e => expired p.ttl now e.2)).map Prod.fst

/-- `cleanupExpired` at instant `now`: collect every identifier whose age
exceeds the TTL under the read lock, then, if any were collected, delete
them from both maps under the write lock. -/
def cleanupExpired (p : BytesTrxStore) (now : Time) : BytesTrxStore :=
  let remove := entriesForRemove p now
  if remove.length > 0 then
    { p with
        cache := p.cache.filter (fun e => !(remove.contains e.1))
        cacheExpire := p.cacheExpire.filter (fun e => !(remove.contains e.1)) }
  else p

/-- Well-formedness of a store state: each map binds each key at most once,
as a real Go map does. Holds for every reachable state. -/
def WF (p : BytesTrxStore) : Prop :=
  (p.cache.map Prod.fst).Nodup ∧ (p.cacheExpire.map Prod.fst).Nodup

/-- The spec invariant: the two maps always hold exactly the same keys. -/
def Inv (p : BytesTrxStore) : Prop :=
  ∀ id, (mapLookup p.cache id).isSome ↔ (mapLookup p.cacheExpire id).isSome

/-- One serialised operation on the store: a `Store` call or one sweep of
`cleanupExpired` (a `Check` does not change the state, see `CheckSt`). -/
inductive Op where
  | store (id : UUID) (result : GoBytes) (now : Time)
  | sweep (now : Time)
deriving DecidableEq

/-- Apply one operation. -/
def applyOp (s : BytesTrxStore) : Op → BytesTrxStore
  | .store id result now => Store s id result now
  | .sweep now => cleanupExpired s now

/-- Run a serialised history of operations. -/
def run (s : BytesTrxStore) (ops : List Op) : BytesTrxStore :=
  ops.foldl applyOp s

/-- Does this operation store under identifier `id`? -/
def storesId (op : Op) (id : UUID) : Bool :=
  match op with
  | .store j _ _ => decide (j = id)
  | .sweep _ => false

/-- Run a sequence of sweeps at the given instants. -/
def runSweeps (s : BytesTrxStore) (times : List Time) : BytesTrxStore :=
  times.foldl cleanupExpired s

/-- Run a serialisation of concurrent `Store` calls to one identifier `z`:
the RWMutex admits one writer at a time, so any concurrent burst of calls
executes as some sequence of payload/instant pairs. -/
def runStores (s : BytesTrxStore) (z : UUID) (ws : List (GoBytes × Time)) : BytesTrxStore :=
  ws.foldl (fun acc w => Store acc z w.1 w.2) s

/-- State of the sweeper goroutine `watchExpire`: whether the loop is still
running and whether its ticker has been stopped. -/
structure SweeperState where
  running : Bool
  tickerStopped : Bool
deriving DecidableEq

/-- Sweeper state right after construction: loop entered, ticker live. -/
def sweeperInit : SweeperState :=
  { running := true, tickerStopped := false }

/-- An event waking the sweeper loop: the ticker fires at instant `now`, or
the construction context's `Done` channel fires. -/
inductive SweepEvent where
  | tick (now : Time)
  | ctxDone
deriving DecidableEq

/-- One iteration of the `watchExpire` loop. `hasCtx` records whether a
non-nil context was supplied at construction. A tick runs `cleanupExpired`.
`ctxDone` is selected only when a context was supplied (a nil context's
`Done` channel never fires): the loop then stops the ticker and returns,
leaving the store untouched. A stopped loop reacts to nothing. -/
def watchExpireStep (hasCtx : Bool) (st : SweeperState) (s : BytesTrxStore) :
    SweepEvent → SweeperState × BytesTrxStore
  | .tick now =>
      if st.running then (st, cleanupExpired s now) else (st, s)
  | .ctxDone =>
      if hasCtx && st.running then
        ({ running := false, tickerStopped := true }, s)
      else (st, s)

/-- Run the sweeper over a sequence of wake events. -/
def runSweeper (hasCtx : Bool) (p : SweeperState × BytesTrxStore)
    (evs : List SweepEvent) : SweeperState × BytesTrxStore :=
  evs.foldl (fun q ev => watchExpireStep hasCtx q.1 q.2 ev) p

/-! ### Map lemmas -/

theorem mapLookup_insert_self {α : Type} (k : UUID) (v : α) (m : List (UUID × α)) :
    mapLookup (mapInsert k v m) k = some v := by
  simp [mapInsert, mapLookup]

theorem mapLookup_filter_key {α : Type} (P : UUID → Bool) (m : List (UUID × α)) (id : UUID) :
    mapLookup (m.filter (fun e => P e.1)) id =
      if P id then mapLookup m id else none := by
  induction m with
  | nil => cases hP : P id <;> simp [mapLookup, hP]
  | cons p rest ih =>
    cases p with
    | mk k v =>
      by_cases hk : k = id
      · subst hk
        cases hP : P k <;> simp [List.filter_cons, hP, mapLookup, ih]
      · cases hP : P k <;> simp [List.filter_cons, hP, mapLookup, hk, ih]

theorem mapLookup_insert_ne {α : Type} (k id : UUID) (v : α) (m : List (UUID × α))
    (h : k ≠ id) :
    mapLookup (mapInsert k v m) id = mapLookup m id := by
  have hkey := mapLookup_filter_key (fun x => decide (x ≠ k)) m id
  have hid : (decide (id ≠ k)) = true := decide_eq_true (Ne.symm h)
  simp only [hid, if_true] at hkey
  simp only [mapInsert, mapLookup, h, if_false]
  exact hkey

theorem mapLookup_eq_some_of_mem {α : Type} {m : List (UUID × α)} {id : UUID} {v : α}
    (hnd : (m.map Prod.fst).Nodup) (hmem : (id, v) ∈ m) :
    mapLookup m id = some v := by
  induction m with
  | nil => cases hmem
  | cons p rest ih =>
    cases p with
    | mk k w =>
      simp only [List.map_cons, List.nodup_cons] at hnd
      rcases List.mem_cons.mp hmem with heq | htail
      · cases heq
        simp [mapLookup]
      · have hk : k ≠ id := by
          intro hcon
          apply hnd.1
          rw [hcon]
          exact List.mem_map.mpr ⟨(id, v), htail, rfl⟩
        simp [mapLookup, hk]
        exact ih hnd.2 htail

theorem mem_of_mapLookup_eq_some {α : Type} {m : List (UUID × α)} {id : UUID} {v : α}
    (h : mapLookup m id = some v) : (id, v) ∈ m := by
  induction m with
  | nil => simp [mapLookup] at h
  | cons p rest ih =>
    cases p with
    | mk k w =>
      by_cases hk : k = id
      · subst hk
        simp [mapLookup] at h
        subst h
        exact List.Mem.head _
      · simp [mapLookup, hk] at h
        exact List.mem_cons_of_mem _ (ih h)

/-! ### Lemmas about `cleanupExpired` -/

/-- After a sweep, a key resolves to `none` if it was collected, and to its
old binding otherwise — for both maps, with no well-formedness needed,
because the delete predicate depends only on the key. -/
theorem cleanupExpired_lookup_cache (p : BytesTrxStore) (now : Time) (id : UUID) :
    mapLookup (cleanupExpired p now).cache id =
      if id ∈ entriesForRemove p now then none else mapLookup p.cache id := by
  unfold cleanupExpired
  by_cases hlen : (entriesForRemove p now).length > 0
  · simp only [hlen, if_true]
    rw [mapLookup_filter_key (fun k => !((entriesForRemove p now).contains k))]
    by_cases hmem : id ∈ entriesForRemove p now
    · simp [hmem]
    · simp [hmem, List.elem_iff]
  · have : entriesForRemove p now = [] := List.length_eq_zero.mp (by omega)
    simp [hlen, this]

theorem cleanupExpired_lookup_expire (p : BytesTrxStore) (now : Time) (id : UUID) :
    mapLookup (cleanupExpired p now).cacheExpire id =
      if id ∈ entriesForRemove p now then none else mapLookup p.cacheExpire id := by
  unfold cleanupExpired
  by_cases hlen : (entriesForRemove p now).length > 0
  · simp only [hlen, if_true]
    rw [mapLookup_filter_key (fun k => !((entriesForRemove p now).contains k))]
    by_cases hmem : id ∈ entriesForRemove p now
    · simp [hmem]
    · simp [hmem, List.elem_iff]
  · have : entriesForRemove p now = [] := List.length_eq_zero.mp (by omega)
    simp [hlen, this]

/-- The sweep never touches the TTL. -/
theorem cleanupExpired_ttl (p : BytesTrxStore) (now : Time) :
    (cleanupExpired p now).ttl = p.ttl := by
  unfold cleanupExpired
  by_cases hlen : (entriesForRemove p now).length > 0 <;> simp [hlen]

/-- Membership in the collected set, for a well-formed expiry map: exactly
the keys whose (unique) timestamp is expired. -/
theorem mem_entriesForRemove_iff {p : BytesTrxStore} (now : Time) (id : UUID)
    (hnd : (p.cacheExpire.map Prod.fst).Nodup) :
    id ∈ entriesForRemove p now ↔
      ∃ t, mapLookup p.cacheExpire id = some t ∧ expired p.ttl now t = true := by
  unfold entriesForRemove
  constructor
  · intro hmem
    rcases List.mem_map.mp hmem with ⟨e, he, hfst⟩
    rcases List.mem_filter.mp he with ⟨hein, hexp⟩
    refine ⟨e.2, ?_, hexp⟩
    have : (id, e.2) ∈ p.cacheExpire := by
      cases e with
      | mk k t => cases hfst; exact hein
    exact mapLookup_eq_some_of_mem hnd this
  · rintro ⟨t, hlook, hexp⟩
    have hmem : (id, t) ∈ p.cacheExpire := mem_of_mapLookup_eq_some hlook
    exact List.mem_map.mpr ⟨(id, t), List.mem_filter.mpr ⟨hmem, hexp⟩, rfl⟩

/-! ### Well-formedness and invariant preservation (shared helpers) -/

theorem nodupKeys_filter {α : Type} (q : UUID × α → Bool) (m : List (UUID × α))
    (h : (m.map Prod.fst).Nodup) : ((m.filter q).map Prod.fst).Nodup :=
  ((List.filter_sublist m).map Prod.fst).nodup h

theorem nodupKeys_mapInsert {α : Type} (k : UUID) (v : α) (m : List (UUID × α))
    (h : (m.map Prod.fst).Nodup) : ((mapInsert k v m).map Prod.fst).Nodup := by
  unfold mapInsert
  simp only [List.map_cons, List.nodup_cons]
  refine ⟨?_, nodupKeys_filter _ m h⟩
  intro hmem
  rcases List.mem_map.mp hmem with ⟨e, he, hfst⟩
  have hne := (List.mem_filter.mp he).2
  rw [hfst] at hne
  simp at hne

theorem WF_new (ttl : Time) : WF (NewBytesTRXStoreWithContext ttl) := by
  constructor <;> simp [NewBytesTRXStoreWithContext]

theorem WF_store (s : BytesTrxStore) (i : UUID) (b : GoBytes) (t : Time)
    (h : WF s) : WF (Store s i b t) :=
  ⟨nodupKeys_mapInsert i b s.cache h.1, nodupKeys_mapInsert i t s.cacheExpire h.2⟩

theorem WF_cleanupExpired (s : BytesTrxStore) (now : Time) (h : WF s) :
    WF (cleanupExpired s now) := by
  unfold cleanupExpired
  by_cases hlen : (entriesForRemove s now).length > 0
  · simp only [hlen, if_true]
    exact ⟨nodupKeys_filter _ s.cache h.1, nodupKeys_filter _ s.cacheExpire h.2⟩
  · simp only [hlen, if_false]
    exact h

theorem Inv_new (ttl : Time) : Inv (NewBytesTRXStoreWithContext ttl) := by
  intro i
  simp [NewBytesTRXStoreWithContext, mapLookup]

theorem Inv_store (s : BytesTrxStore) (i : UUID) (b : GoBytes) (t : Time)
    (h : Inv s) : Inv (Store s i b t) := by
  intro j
  by_cases hj : i = j
  · rw [← hj]
    simp [Store, mapLookup_insert_self]
  · simp only [Store]
    rw [mapLookup_insert_ne i j b s.cache hj, mapLookup_insert_ne i j t s.cacheExpire hj]
    exact h j

theorem Inv_cleanupExpired (s : BytesTrxStore) (now : Time) (h : Inv s) :
    Inv (cleanupExpired s now) := by
  intro j
  rw [cleanupExpired_lookup_cache, cleanupExpired_lookup_expire]
  by_cases hm : j ∈ entriesForRemove s now
  · simp [hm]
  · simp only [hm, if_false]
    exact h j

/-! ### Behaviour of one sweep on a single key (shared helpers) -/

theorem cleanup_removes_expired {s : BytesTrxStore} {now : Time} {i : UUID} {t : Time}
    (hnd : (s.cacheExpire.map Prod.fst).Nodup)
    (hlook : mapLookup s.cacheExpire i = some t)
    (hexp : expired s.ttl now t = true) :
    mapLookup (cleanupExpired s now).cache i = none ∧
    mapLookup (cleanupExpired s now).cacheExpire i = none := by
  have hmem : i ∈ entriesForRemove s now :=
    (mem_entriesForRemove_iff now i hnd).mpr ⟨t, hlook, hexp⟩
  rw [cleanupExpired_lookup_cache, cleanupExpired_lookup_expire]
  simp [hmem]

theorem cleanup_keeps_live {s : BytesTrxStore} {now : Time} {i : UUID} {t : Time}
    (hnd : (s.cacheExpire.map Prod.fst).Nodup)
    (hlook : mapLookup s.cacheExpire i = some t)
    (hexp : expired s.ttl now t = false) :
    mapLookup (cleanupExpired s now).cache i = mapLookup s.cache i ∧
    mapLookup (cleanupExpired s now).cacheExpire i = some t := by
  have hmem : i ∉ entriesForRemove s now := by
    intro hmem
    rcases (mem_entriesForRemove_iff now i hnd).mp hmem with ⟨t2, hlook2, hexp2⟩
    rw [hlook] at hlook2
    cases hlook2
    rw [hexp] at hexp2
    cases hexp2
  rw [cleanupExpired_lookup_cache, cleanupExpired_lookup_expire]
  simp [hmem, hlook]

theorem cleanup_keeps_missing {s : BytesTrxStore} {now : Time} {i : UUID}
    (hnd : (s.cacheExpire.map Prod.fst).Nodup)
    (hlook : mapLookup s.cacheExpire i = none) :
    mapLookup (cleanupExpired s now).cache i = mapLookup s.cache i ∧
    mapLookup (cleanupExpired s now).cacheExpire i = none := by
  have hmem : i ∉ entriesForRemove s now := by
    intro hmem
    rcases (mem_entriesForRemove_iff now i hnd).mp hmem with ⟨t2, hlook2, _⟩
    rw [hlook] at hlook2
    cases hlook2
  rw [cleanupExpired_lookup_cache, cleanupExpired_lookup_expire]
  simp [hmem, hlook]

/-- A key absent from the cache stays absent across any sequence of sweeps:
the sweeper only deletes. -/
theorem sweeps_keep_none (p : BytesTrxStore) (times : List Time) (i : UUID)
    (h : mapLookup p.cache i = none) :
    mapLookup (runSweeps p times).cache i = none := by
  induction times generalizing p with
  | nil => exact h
  | cons tc rest ih =>
    have hstep : mapLookup (cleanupExpired p tc).cache i = none := by
      rw [cleanupExpired_lookup_cache]
      by_cases hm : i ∈ entriesForRemove p tc <;> simp [hm, h]
    exact ih (cleanupExpired p tc) hstep

/-- A key absent from the cache stays absent across any serialised history
that never stores under it. -/
theorem run_no_store_keeps_none (s : BytesTrxStore) (ops : List Op) (i : UUID)
    (hs : mapLookup s.cache i = none)
    (h : ∀ op ∈ ops, storesId op i = false) :
    mapLookup (run s ops).cache i = none := by
  induction ops generalizing s with
  | nil => exact hs
  | cons op rest ih =>
    have hop := h op (List.mem_cons_self op rest)
    have hrest : ∀ op2 ∈ rest, storesId op2 i = false :=
      fun op2 hm => h op2 (List.mem_cons_of_mem op hm)
    have hrun : run s (op :: rest) = run (applyOp s op) rest := rfl
    rw [hrun]
    cases op with
    | store j r tnow =>
      have hj : j ≠ i := by simpa [storesId] using hop
      refine ih (applyOp s (Op.store j r tnow)) ?_ hrest
      simpa [applyOp, Store] using
        (mapLookup_insert_ne j i r s.cache hj).trans hs
    | sweep tnow =>
      refine ih (applyOp s (Op.sweep tnow)) ?_ hrest
      show mapLookup (cleanupExpired s tnow).cache i = none
      rw [cleanupExpired_lookup_cache]
      by_cases hm : i ∈ entriesForRemove s tnow <;> simp [hm, hs]

/-! ### Claim theorems -/

/-- C1: for every identifier and every byte sequence, a `Store(id, bytes)`
immediately followed by `Check(id)`, with no intervening sweep or other
`Store`, returns exactly `bytes`. -/
theorem store_then_check (s : BytesTrxStore) (i : UUID) (bytes : GoBytes) (now : Time) :
    Check (Store s i bytes now) i = bytes := by
  simp [Check, Store, mapLookup_insert_self]

/-- C4: `Store(id, bytes1)` then `Store(id, bytes2)` then `Check(id)`
returns `bytes2` (last write wins), and the entry's creation timestamp
after the second `Store` is the second `Store`'s time, so a re-store resets
the expiry clock. -/
theorem store_store_last_write_wins (s : BytesTrxStore) (i : UUID)
    (bytes1 bytes2 : GoBytes) (t1 t2 : Time) :
    Check (Store (Store s i bytes1 t1) i bytes2 t2) i = bytes2 ∧
    mapLookup (Store (Store s i bytes1 t1) i bytes2 t2).cacheExpire i = some t2 := by
  constructor
  · simp [Check, Store, mapLookup_insert_self]
  · simp [Store, mapLookup_insert_self]

/-- C8: `Check` has no side effects: with the receiver state threaded
explicitly, the state that comes back out is exactly the state that went
in — both maps and the TTL are unchanged — and the returned bytes are
`Check`'s result. -/
theorem check_no_side_effects (s : BytesTrxStore) (i : UUID) :
    (CheckSt s i).2 = s ∧
    (CheckSt s i).2.cache = s.cache ∧
    (CheckSt s i).2.cacheExpire = s.cacheExpire ∧
    (CheckSt s i).2.ttl = s.ttl ∧
    (CheckSt s i).1 = Check s i :=
  ⟨rfl, rfl, rfl, rfl, rfl⟩

/-- C9 counterexample: storing the *empty non-nil* slice is distinguishable
from absence at the public interface: `Check` then returns the empty
non-nil slice (`some []`), not the nil slice (`none`) that a never-stored
identifier yields — a Go caller separates the two with `res != nil`, as the
package's own test does. -/
theorem store_empty_distinguishable_cex :
    Check (Store (NewBytesTRXStore 10) 1 (some []) 0) 1 = some [] ∧
    Check (NewBytesTRXStore 10) 1 = none ∧
    some ([] : List Nat) ≠ (none : GoBytes) := by
  refine ⟨by decide, by decide, by decide⟩

/-- C9 (amended): storing the *nil* byte sequence makes the result
indistinguishable from absence: after `Store(id, nil)`, `Check(id)` returns
nil, exactly the absence signal of a never-stored identifier, even though
the identifier is present in both internal mappings. (An empty non-nil
slice is returned as `some []`, distinguishable from absence by a nil
check.) -/
theorem store_nil_indistinguishable (s : BytesTrxStore) (i j : UUID) (t ttl : Time) :
    Check (Store s i none t) i = none ∧
    Check (NewBytesTRXStoreWithContext ttl) j = none ∧
    (mapLookup (Store s i none t).cache i).isSome = true ∧
    (mapLookup (Store s i none t).cacheExpire i).isSome = true := by
  refine ⟨?_, ?_, ?_, ?_⟩
  · simp [Check, Store, mapLookup_insert_self]
  · simp [Check, NewBytesTRXStoreWithContext, mapLookup]
  · simp [Store, mapLookup_insert_self]
  · simp [Store, mapLookup_insert_self]

/-- C2: construction, `Store`, and the sweeper's delete phase all preserve
the invariant that the result map and the timestamp map hold exactly the
same keys: from any state satisfying the invariant, every operation yields
a state satisfying it, and the fresh store satisfies it. -/
theorem invariant_preserved (ttl now t : Time) (s : BytesTrxStore) (i : UUID)
    (b : GoBytes) (h : Inv s) :
    Inv (NewBytesTRXStoreWithContext ttl) ∧ Inv (Store s i b t) ∧
    Inv (cleanupExpired s now) :=
  ⟨Inv_new ttl, Inv_store s i b t h, Inv_cleanupExpired s now h⟩

theorem invariant_preserved_witness :
    Inv (Store (NewBytesTRXStoreWithContext 10) 1 (some [2]) 3) :=
  (invariant_preserved 10 5 3 (NewBytesTRXStoreWithContext 10) 1 (some [2])
    (Inv_new 10)).2.1

/-- C3: one sweep at instant `now` deletes from both maps exactly the
identifiers whose age exceeds the TTL: an expired entry vanishes from both
maps and from `Check`; an unexpired entry keeps its value and its
timestamp; an identifier with no timestamp entry is untouched. -/
theorem cleanup_exact (s : BytesTrxStore) (now : Time) (i : UUID) (h : WF s) :
    (∀ t, mapLookup s.cacheExpire i = some t → now - t > s.ttl →
        mapLookup (cleanupExpired s now).cache i = none ∧
        mapLookup (cleanupExpired s now).cacheExpire i = none ∧
        Check (cleanupExpired s now) i = none) ∧
    (∀ t, mapLookup s.cacheExpire i = some t → ¬ now - t > s.ttl →
        mapLookup (cleanupExpired s now).cache i = mapLookup s.cache i ∧
        mapLookup (cleanupExpired s now).cacheExpire i = some t) ∧
    (mapLookup s.cacheExpire i = none →
        mapLookup (cleanupExpired s now).cache i = mapLookup s.cache i ∧
        mapLookup (cleanupExpired s now).cacheExpire i = none) := by
  refine ⟨?_, ?_, ?_⟩
  · intro t hlook hage
    have hexp : expired s.ttl now t = true := decide_eq_true hage
    have hrm := cleanup_removes_expired h.2 hlook hexp
    exact ⟨hrm.1, hrm.2, by simp [Check, hrm.1]⟩
  · intro t hlook hage
    have hexp : expired s.ttl now t = false := by
      simpa [expired] using hage
    exact cleanup_keeps_live h.2 hlook hexp
  · intro hlook
    exact cleanup_keeps_missing h.2 hlook

theorem cleanup_exact_witness :
    mapLookup (cleanupExpired (Store (NewBytesTRXStoreWithContext 10) 1 (some [2]) 0) 100).cache 1
      = none := by
  have h := cleanup_exact (Store (NewBytesTRXStoreWithContext 10) 1 (some [2]) 0) 100 1
    (WF_store (NewBytesTRXStoreWithContext 10) 1 (some [2]) 0 (WF_new 10))
  exact (h.1 0 (by decide) (by decide)).1

/-- C5: for an identifier never passed to `Store` in a whole serialised
history of operations (stores to other identifiers and sweeps, in any
order), `Check` returns the absence signal nil; `Check` is total, so no
input can make it fail. -/
theorem never_stored_check_absent (ttl : Time) (ops : List Op) (i : UUID)
    (h : ∀ op ∈ ops, storesId op i = false) :
    Check (run (NewBytesTRXStoreWithContext ttl) ops) i = none := by
  have hres := run_no_store_keeps_none (NewBytesTRXStoreWithContext ttl) ops i rfl h
  simp [Check, hres]

theorem never_stored_check_absent_witness :
    Check (run (NewBytesTRXStoreWithContext 10)
      [Op.store 1 (some [7]) 0, Op.sweep 5]) 2 = none :=
  never_stored_check_absent 10 [Op.store 1 (some [7]) 0, Op.sweep 5] 2 (by decide)

/-! ### Helpers for expiry, sweeper lifecycle and store serialisation -/

/-- A live (unexpired) entry survives any sequence of sweeps whose instants
all leave its age within the TTL, keeping value and timestamp. -/
theorem sweeps_keep_live (times : List Time) (p : BytesTrxStore) (i : UUID)
    (b : GoBytes) (t0 : Time) (hwf : WF p)
    (hc : mapLookup p.cache i = some b) (he : mapLookup p.cacheExpire i = some t0)
    (hlive : ∀ tc ∈ times, ¬ tc - t0 > p.ttl) :
    mapLookup (runSweeps p times).cache i = some b ∧
    mapLookup (runSweeps p times).cacheExpire i = some t0 := by
  induction times generalizing p with
  | nil => exact ⟨hc, he⟩
  | cons tc rest ih =>
    have hexp : expired p.ttl tc t0 = false :=
      decide_eq_false (hlive tc (List.mem_cons_self tc rest))
    have hkeep := cleanup_keeps_live hwf.2 he hexp
    have httl := cleanupExpired_ttl p tc
    have hrest : ∀ t2 ∈ rest, ¬ t2 - t0 > (cleanupExpired p tc).ttl := by
      rw [httl]
      exact fun t2 hm => hlive t2 (List.mem_cons_of_mem tc hm)
    have hstep : runSweeps p (tc :: rest) = runSweeps (cleanupExpired p tc) rest := rfl
    rw [hstep]
    exact ih (cleanupExpired p tc) (WF_cleanupExpired p tc hwf)
      (hkeep.1.trans hc) hkeep.2 hrest

/-- With a nil context the sweeper state never changes: the loop has no
exit condition, so it keeps running through every wake. -/
theorem runSweeper_noCtx_state (st : SweeperState) (s : BytesTrxStore)
    (evs : List SweepEvent) : (runSweeper false (st, s) evs).1 = st := by
  induction evs generalizing s with
  | nil => rfl
  | cons ev rest ih =>
    have hstep : runSweeper false (st, s) (ev :: rest)
        = runSweeper false (watchExpireStep false st s ev) rest := rfl
    rw [hstep]
    cases ev with
    | tick now =>
      cases hr : st.running with
      | true =>
        have hred : watchExpireStep false st s (SweepEvent.tick now)
            = (st, cleanupExpired s now) := by simp [watchExpireStep, hr]
        rw [hred]
        exact ih (cleanupExpired s now)
      | false =>
        have hred : watchExpireStep false st s (SweepEvent.tick now) = (st, s) := by
          simp [watchExpireStep, hr]
        rw [hred]
        exact ih s
    | ctxDone =>
      have hred : watchExpireStep false st s SweepEvent.ctxDone = (st, s) := by
        simp [watchExpireStep]
      rw [hred]
      exact ih s

/-- A stopped sweeper reacts to no further event: the loop has returned. -/
theorem runSweeper_stopped (hasCtx : Bool) (st : SweeperState) (s : BytesTrxStore)
    (hr : st.running = false) (evs : List SweepEvent) :
    runSweeper hasCtx (st, s) evs = (st, s) := by
  induction evs with
  | nil => rfl
  | cons ev rest ih =>
    have hred : watchExpireStep hasCtx st s ev = (st, s) := by
      cases ev <;> simp [watchExpireStep, hr]
    show runSweeper hasCtx (watchExpireStep hasCtx st s ev) rest = (st, s)
    rw [hred]
    exact ih

/-- After a serialisation of `Store` calls to `z`, `Check z` yields the
payload of the last call, which is one of the submitted payloads. -/
theorem runStores_last (z : UUID) (w : GoBytes × Time) :
    ∀ (ws : List (GoBytes × Time)) (s : BytesTrxStore), ws.getLast? = some w →
      Check (runStores s z ws) z = w.1 ∧ w.1 ∈ ws.map Prod.fst := by
  intro ws
  induction ws with
  | nil =>
    intro s h
    simp at h
  | cons a rest ih =>
    intro s h
    cases rest with
    | nil =>
      simp at h
      subst h
      constructor
      · show Check (Store s z a.1 a.2) z = a.1
        simp [Check, Store, mapLookup_insert_self]
      · simp
    | cons c t =>
      rw [List.getLast?_cons_cons] at h
      have hres := ih (Store s z a.1 a.2) h
      exact ⟨hres.1, List.mem_cons_of_mem a.1 hres.2⟩

/-- C6: with TTL `d`, after `Store(id, bytes)` at `t0`: sweeps all run while
the entry's age is within `d` never evict it, so any `Check` before `d`
elapses returns `bytes`; once a sweep runs with the age exceeding `d`, the
entry is evicted and `Check` returns absence, and it stays absent through
any further sweeps. -/
theorem expiry_behavior (s : BytesTrxStore) (i : UUID) (b : GoBytes) (t0 : Time)
    (hwf : WF s) :
    (∀ times : List Time, (∀ tc ∈ times, ¬ tc - t0 > s.ttl) →
        Check (runSweeps (Store s i b t0) times) i = b) ∧
    (∀ now : Time, now - t0 > s.ttl →
        Check (cleanupExpired (Store s i b t0) now) i = none) ∧
    (∀ (now : Time) (times : List Time), now - t0 > s.ttl →
        Check (runSweeps (cleanupExpired (Store s i b t0) now) times) i = none) := by
  have hwfS := WF_store s i b t0 hwf
  have hcS : mapLookup (Store s i b t0).cache i = some b :=
    mapLookup_insert_self i b s.cache
  have heS : mapLookup (Store s i b t0).cacheExpire i = some t0 :=
    mapLookup_insert_self i t0 s.cacheExpire
  have httlS : (Store s i b t0).ttl = s.ttl := rfl
  refine ⟨?_, ?_, ?_⟩
  · intro times hlive
    have hkeep := sweeps_keep_live times (Store s i b t0) i b t0 hwfS hcS heS
      (by rw [httlS]; exact hlive)
    simp [Check, hkeep.1]
  · intro now hage
    have hexp : expired (Store s i b t0).ttl now t0 = true := by
      rw [httlS]
      exact decide_eq_true hage
    have hrm := cleanup_removes_expired hwfS.2 heS hexp
    simp [Check, hrm.1]
  · intro now times hage
    have hexp : expired (Store s i b t0).ttl now t0 = true := by
      rw [httlS]
      exact decide_eq_true hage
    have hrm := cleanup_removes_expired hwfS.2 heS hexp
    have hnone := sweeps_keep_none (cleanupExpired (Store s i b t0) now) times i hrm.1
    simp [Check, hnone]

theorem expiry_behavior_witness :
    Check (runSweeps (Store (NewBytesTRXStoreWithContext 10) 1 (some [2]) 0) [5]) 1
      = some [2] :=
  (expiry_behavior (NewBytesTRXStoreWithContext 10) 1 (some [2]) 0 (WF_new 10)).1
    [5] (by decide)

/-- C7: when a context was supplied and fires, the running sweeper stops on
that wake and stops its ticker, touching no stored entry — the store state
is unchanged, every `Check` answer is preserved, and no later event does
anything; with a nil context no event ever changes the sweeper state, so
the loop runs indefinitely with no way to stop it. -/
theorem sweeper_cancellation (st : SweeperState) (s : BytesTrxStore)
    (h : st.running = true) :
    ((watchExpireStep true st s SweepEvent.ctxDone).1.running = false ∧
     (watchExpireStep true st s SweepEvent.ctxDone).1.tickerStopped = true ∧
     (watchExpireStep true st s SweepEvent.ctxDone).2 = s ∧
     (∀ j, Check (watchExpireStep true st s SweepEvent.ctxDone).2 j = Check s j) ∧
     (∀ evs, runSweeper true (watchExpireStep true st s SweepEvent.ctxDone) evs
        = watchExpireStep true st s SweepEvent.ctxDone)) ∧
    (∀ evs, (runSweeper false (st, s) evs).1 = st) := by
  have hstep : watchExpireStep true st s SweepEvent.ctxDone
      = ({ running := false, tickerStopped := true }, s) := by
    simp [watchExpireStep, h]
  refine ⟨⟨?_, ?_, ?_, ?_, ?_⟩, ?_⟩
  · rw [hstep]
  · rw [hstep]
  · rw [hstep]
  · intro j
    rw [hstep]
  · intro evs
    rw [hstep]
    exact runSweeper_stopped true _ s rfl evs
  · exact fun evs => runSweeper_noCtx_state st s evs

theorem sweeper_cancellation_witness :
    (watchExpireStep true sweeperInit (NewBytesTRXStoreWithContext 10)
      SweepEvent.ctxDone).1.running = false :=
  ((sweeper_cancellation sweeperInit (NewBytesTRXStoreWithContext 10) rfl).1).1

/-- C10: for any serialisation of a burst of concurrent `Store(Z, _)` calls
(the RWMutex admits one writer at a time, so a concurrent burst executes as
some sequence), `Check(Z)` afterwards returns exactly the payload of the
last serialised call — one of the submitted payloads, whole, with no
corruption — and a further `Check` (which leaves the state untouched)
returns that same payload again. -/
theorem concurrent_stores_one_winner (s : BytesTrxStore) (z : UUID)
    (ws : List (GoBytes × Time)) (w : GoBytes × Time)
    (h : ws.getLast? = some w) :
    Check (runStores s z ws) z = w.1 ∧
    w.1 ∈ ws.map Prod.fst ∧
    Check ((CheckSt (runStores s z ws) z).2) z = w.1 := by
  have hres := runStores_last z w ws s h
  exact ⟨hres.1, hres.2, hres.1⟩

theorem concurrent_stores_one_winner_witness :
    Check (runStores (NewBytesTRXStoreWithContext 10) 5
      [(some [1], 0), (some [2], 1)]) 5 = some [2] :=
  (concurrent_stores_one_winner (NewBytesTRXStoreWithContext 10) 5
    [(some [1], 0), (some [2], 1)] (some [2], 1) (by decide)).1

end TrxStore
